import Mathlib

/-!
Verification development for the AgentSync repository: a shallow embedding of
the log-aggregation / relevance-ranking engine (logBackend) and the
session-sync pipeline (pullFabioSessions), with theorems about the
behaviour of the embedded operations.

Strings are modelled as `List Char`, JavaScript numbers as `ℚ`.
-/

/-- Models the JavaScript regex class `\s` (and `String.prototype.trim`):
space, tab, line feed, vertical tab, form feed, carriage return, NBSP,
Ogham space, the U+2000–U+200A range, line/paragraph separators, narrow
no-break space, medium mathematical space, ideographic space, BOM. -/
def isJsWs (c : Char) : Bool :=
  c = ' ' || c = '\t' || c = '\n' || c.toNat = 11 || c.toNat = 12 ||
  c = '\r' || c.toNat = 160 || c.toNat = 5760 ||
  (8192 ≤ c.toNat && c.toNat ≤ 8202) ||
  c.toNat = 8232 || c.toNat = 8233 || c.toNat = 8239 || c.toNat = 8287 ||
  c.toNat = 12288 || c.toNat = 65279

/-- Models `value.replace(/\s+/g, " ")` one character at a time; the flag
records whether the previous character was whitespace (so that a whole run
emits a single space). -/
def collapseAux : List Char → Bool → List Char
  | [], _ => []
  | c :: cs, prev =>
    if isJsWs c then
      if prev then collapseAux cs true else ' ' :: collapseAux cs true
    else
      c :: collapseAux cs false

/-- Models `value.replace(/\s+/g, " ")`. -/
def replaceWsRuns (l : List Char) : List Char := collapseAux l false

/-- Models `String.prototype.trim`. -/
def trimWs (l : List Char) : List Char :=
  ((l.dropWhile isJsWs).reverse.dropWhile isJsWs).reverse

/-- Embeds `normalizeText` from logBackend: `text.replace(/\s+/g, " ").trim()`. -/
def normalizeText (l : List Char) : List Char := trimWs (replaceWsRuns l)

/-- ASCII case folding of one character; models
`String.prototype.toLowerCase` on the ASCII range. -/
def lowerChar (c : Char) : Char :=
  if 'A' ≤ c ∧ c ≤ 'Z' then Char.ofNat (c.toNat + 32) else c

/-- Models `String.prototype.toLowerCase` (ASCII). -/
def jsToLower (l : List Char) : List Char := l.map lowerChar

/-- Whether `needle` is a prefix of `hay` (Boolean). -/
def listPrefixOf : List Char → List Char → Bool
  | [], _ => true
  | _ :: _, [] => false
  | a :: as, b :: bs => a = b && listPrefixOf as bs

/-- Models `hay.includes(needle)` on strings: `needle` occurs as a
contiguous substring of `hay`. -/
def containsSub (hay needle : List Char) : Bool :=
  match hay with
  | [] => listPrefixOf needle []
  | _ :: t => listPrefixOf needle hay || containsSub t needle

/-- Models `String.prototype.split` with a single-character separator. -/
def splitOnChar (sep : Char) : List Char → List (List Char)
  | [] => [[]]
  | c :: t =>
    match splitOnChar sep t with
    | [] => [[c]]
    | cur :: rest => if c = sep then [] :: cur :: rest else (c :: cur) :: rest

/-- Models `Array.prototype.join` with a single-character separator. -/
def joinWith (sep : Char) : List (List Char) → List Char
  | [] => []
  | [x] => x
  | x :: y :: rest => x ++ sep :: joinWith sep (y :: rest)

/-- Lowercase-ASCII letter or digit, the class `[a-z0-9]` of the tokenizer. -/
def isLowerAlnum (c : Char) : Bool :=
  ('a' ≤ c && c ≤ 'z') || ('0' ≤ c && c ≤ '9')

/-- Maximal runs of characters not satisfying `p`...: accumulates the
current word (reversed) and emits it when a separator ends it. -/
def wordsByAux (sep : Char → Bool) : List Char → List Char → List (List Char)
  | [], acc => if acc = [] then [] else [acc.reverse]
  | c :: cs, acc =>
    if sep c then
      if acc = [] then wordsByAux sep cs []
      else acc.reverse :: wordsByAux sep cs []
    else
      wordsByAux sep cs (c :: acc)

/-- The maximal runs of characters satisfying `¬ sep`. -/
def wordsBy (sep : Char → Bool) (l : List Char) : List (List Char) :=
  wordsByAux sep l []

/-- Embeds `tokenize` from logBackend:
`query.toLowerCase().split(/[^a-z0-9]+/g).map(trim).filter(len > 1)`.
After the final filter the result is exactly the maximal `[a-z0-9]` runs of
the lowercased query that have length greater than 1. -/
def tokenize (query : List Char) : List (List Char) :=
  (wordsBy (fun c => !isLowerAlnum c) (jsToLower query)).filter
    (fun t => 1 < t.length)

/-- The character class `[a-z0-9_-]` (with `i` flag: also `A-Z`) of the
bare-slash-command regex. -/
def isSlashWordChar (c : Char) : Bool :=
  ('a' ≤ c && c ≤ 'z') || ('A' ≤ c && c ≤ 'Z') ||
  ('0' ≤ c && c ≤ '9') || c = '_' || c = '-'

/-- Models the test `/^\/[a-z0-9_-]+$/i.test(s)`. -/
def isBareSlashCmd : List Char → Bool
  | '/' :: rest => rest ≠ [] && rest.all isSlashWordChar
  | _ => false

/-- Embeds `looksLikeActionableTask` from logBackend. -/
def looksLikeActionableTask (text : List Char) : Bool :=
  let trimmed := normalizeText text
  if trimmed = [] ∨ trimmed.length < 4 then false
  else if isBareSlashCmd trimmed then false
  else true

/-! ## JSON values and the record parser (logBackend) -/

/-- A decoded JSON value (the result of `JSON.parse`). -/
inductive Json where
  | null : Json
  | bool (b : Bool) : Json
  | num (q : ℚ) : Json
  | str (s : List Char) : Json
  | arr (elems : List Json) : Json
  | obj (fields : List (List Char × Json)) : Json

/-- Property access `record[name]` for a named property: defined on objects
only (arrays and primitives have no such own property). -/
def getField : Json → List Char → Option Json
  | .obj fields, name =>
    match fields.find? (fun f => f.1 = name) with
    | some f => some f.2
    | none => none
  | _, _ => none

/-- The string value of an optional field, when it is a string. -/
def asStr : Option Json → Option (List Char)
  | some (.str s) => some s
  | _ => none

/-- Tests `typeof v === "number" || typeof v === "string"` for an optional field. -/
def numOrStr : Option Json → Bool
  | some (.num _) => true
  | some (.str _) => true
  | _ => false

/-- Tests `typeof v === "number"` for an optional field. -/
def isNumField : Option Json → Bool
  | some (.num _) => true
  | _ => false

/-- Tests `v === "s"` for an optional field. -/
def isStrEq (o : Option Json) (s : List Char) : Bool :=
  match o with
  | some (.str t) => t = s
  | _ => false

/-- Tests `parsed && typeof parsed === "object"`: a non-null JSON object or array. -/
def isObjLike : Json → Bool
  | .obj _ => true
  | .arr _ => true
  | _ => false

def kText : List Char := "text".toList
def kTs : List Char := "ts".toList
def kSessionIdSnake : List Char := "session_id".toList
def kSessionId : List Char := "sessionId".toList
def kDisplay : List Char := "display".toList
def kTimestamp : List Char := "timestamp".toList
def kProject : List Char := "project".toList
def kType : List Char := "type".toList
def kMessage : List Char := "message".toList
def kContent : List Char := "content".toList
def strUser : List Char := "user".toList
def strCodexSeg : List Char := "/.codex/".toList
def strClaudeSeg : List Char := "/.claude/".toList

/-- Embeds `LogSource` from logBackend. -/
inductive LogSource where
  | claude
  | codex
  | unknown
deriving DecidableEq, Repr

/-- A task record before scoring (`RawTaskHit` = `Omit<TaskHit, "score">`). -/
structure RawTaskHit where
  engineer : List Char
  source : LogSource
  text : List Char
  timestampMs : ℚ
  sessionId : Option (List Char)
  project : Option (List Char)
  file : List Char
  line : ℕ
deriving DecidableEq, Repr

/-- Embeds `parseTimestampToMs` from logBackend; `dateParse` models `Date.parse`
(`none` standing for `NaN`). -/
def parseTimestampToMs (dateParse : List Char → Option ℚ) : Option Json → ℚ
  | some (.num v) => if v > 1000000000000 then v else v * 1000
  | some (.str s) =>
    match dateParse s with
    | some parsed => parsed
    | none => 0
  | _ => 0

/-- Embeds `inferSource` from logBackend (`path.sep` is modelled as `/`). -/
def inferSource (filePath : List Char) (record : Json) : LogSource :=
  if containsSub filePath strCodexSeg ∨
      isNumField (getField record kTs) ∨
      (asStr (getField record kSessionIdSnake)).isSome then
    .codex
  else if containsSub filePath strClaudeSeg ∨
      (asStr (getField record kDisplay)).isSome then
    .claude
  else
    .unknown

/-- Embeds `extractTextFromContent` from logBackend: a string is returned as-is; an
array contributes its string elements and the string `text` fields of its
object elements, joined by newlines; anything else yields the empty text. -/
def extractTextFromContent : Json → List Char
  | .str s => s
  | .arr parts =>
    joinWith '\n' (parts.filterMap (fun part =>
      match part with
      | .str s => some s
      | _ => asStr (getField part kText)))
  | _ => []

/-- Embeds `extractTaskFromRecord` from logBackend: tries the Codex-history shape,
then the Claude-history shape, then the session-trace user message, else
produces nothing. -/
def extractTaskFromRecord (dateParse : List Char → Option ℚ)
    (filePath : List Char) (line : ℕ) (engineer : List Char)
    (record : Json) : List RawTaskHit :=
  let source := inferSource filePath record
  if (asStr (getField record kText)).isSome ∧ numOrStr (getField record kTs) then
    [{ engineer
       source := if source = .unknown then .codex else source
       text := normalizeText ((asStr (getField record kText)).getD [])
       timestampMs := parseTimestampToMs dateParse (getField record kTs)
       sessionId := asStr (getField record kSessionIdSnake)
       project := none
       file := filePath
       line }]
  else if (asStr (getField record kDisplay)).isSome ∧
      numOrStr (getField record kTimestamp) then
    [{ engineer
       source := if source = .unknown then .claude else source
       text := normalizeText ((asStr (getField record kDisplay)).getD [])
       timestampMs := parseTimestampToMs dateParse (getField record kTimestamp)
       sessionId := asStr (getField record kSessionId)
       project := asStr (getField record kProject)
       file := filePath
       line }]
  else if isStrEq (getField record kType) strUser then
    let text :=
      match getField record kMessage with
      | some (.obj mfields) =>
        match getField (Json.obj mfields) kContent with
        | some content => extractTextFromContent content
        | none => []
      | some (.str s) => s
      | _ => []
    let sessionId :=
      match asStr (getField record kSessionId) with
      | some s => some s
      | none => asStr (getField record kSessionIdSnake)
    [{ engineer
       source
       text := normalizeText text
       timestampMs := parseTimestampToMs dateParse (getField record kTimestamp)
       sessionId
       project := none
       file := filePath
       line }]
  else
    []

/-- Embeds `extractTasksFromJsonl` from logBackend, with the file contents given as
`raw` and `JSON.parse` modelled by `jsonParse` (`none` standing for a parse
exception). Splits on newlines, trims each line, skips blank and
unparseable lines and non-object values, and keeps exactly the extracted
records whose text looks actionable. -/
def extractTasksFromJsonl (jsonParse : List Char → Option Json)
    (dateParse : List Char → Option ℚ)
    (filePath : List Char) (engineer : List Char)
    (raw : List Char) : List RawTaskHit :=
  ((splitOnChar '\n' raw).enum).flatMap (fun p =>
    let line := trimWs p.2
    if line = [] then []
    else
      match jsonParse line with
      | some parsed =>
        if isObjLike parsed then
          (extractTaskFromRecord dateParse filePath (p.1 + 1) engineer
              parsed).filter (fun item => looksLikeActionableTask item.text)
        else []
      | none => [])

/-! ## Relevance scoring and the query orchestrator (logBackend) -/

/-- Embeds `computeScore` from logBackend. -/
def computeScore (item : RawTaskHit) (queryLower : List Char)
    (queryTokens : List (List Char)) (nowMs : ℚ) : ℚ :=
  let textLower := jsToLower item.text
  let base : ℚ :=
    if queryLower = [] then 10
    else
      (if containsSub textLower queryLower then 80 else 0) +
        queryTokens.foldl
          (fun acc token => if containsSub textLower token then acc + 10 else acc) 0
  let sourceBonus : ℚ := if item.source = .codex ∨ item.source = .claude then 5 else 0
  let recency : ℚ :=
    if item.timestampMs > 0 then
      let ageDays := max 0 ((nowMs - item.timestampMs) / 86400000)
      max 0 (25 - ageDays / 2)
    else 0
  base + sourceBonus + recency

/-- Additive part of the score (spec wording): flat bonus for an empty
normalized query. -/
def emptyQueryPart (queryLower : List Char) : ℚ :=
  if queryLower = [] then 10 else 0

/-- Additive part of the score (spec wording): full-query substring bonus. -/
def fullMatchPart (item : RawTaskHit) (queryLower : List Char) : ℚ :=
  if queryLower ≠ [] ∧ containsSub (jsToLower item.text) queryLower then 80 else 0

/-- Additive part of the score (spec wording): 10 per query token occurring
as a substring of the lowercased text. -/
def tokenPart (item : RawTaskHit) (queryLower : List Char)
    (queryTokens : List (List Char)) : ℚ :=
  if queryLower = [] then 0
  else 10 * (queryTokens.countP (fun t => containsSub (jsToLower item.text) t) : ℚ)

/-- Additive part of the score (spec wording): known-source bonus. -/
def sourcePart (item : RawTaskHit) : ℚ :=
  if item.source = .codex ∨ item.source = .claude then 5 else 0

/-- Additive part of the score (spec wording): recency bonus. -/
def recencyPart (item : RawTaskHit) (nowMs : ℚ) : ℚ :=
  if item.timestampMs > 0 then
    max 0 (25 - (max 0 ((nowMs - item.timestampMs) / 86400000)) / 2)
  else 0

/-- Embeds `TaskHit`: a task record plus its relevance score. -/
structure TaskHit extends RawTaskHit where
  score : ℚ
deriving DecidableEq, Repr

/-- The ranking order of the final sort
(`(a, b) => b.score - a.score || b.timestampMs - a.timestampMs`):
`a` may come before `b` iff `a` has strictly greater score, or equal score
and greater-or-equal timestamp. -/
def rankLE (a b : TaskHit) : Prop :=
  b.score < a.score ∨ (b.score = a.score ∧ b.timestampMs ≤ a.timestampMs)

instance : DecidableRel rankLE := fun a b => by
  unfold rankLE; infer_instance

instance : IsTotal TaskHit rankLE where
  total a b := by
    unfold rankLE
    rcases lt_trichotomy a.score b.score with h | h | h
    · exact Or.inr (Or.inl h)
    · rcases le_total a.timestampMs b.timestampMs with ht | ht
      · exact Or.inr (Or.inr ⟨h, ht⟩)
      · exact Or.inl (Or.inr ⟨h.symm, ht⟩)
    · exact Or.inl (Or.inl h)

instance : IsTrans TaskHit rankLE where
  trans a b c hab hbc := by
    unfold rankLE at *
    rcases hab with h1 | ⟨h1, t1⟩
    · rcases hbc with h2 | ⟨h2, t2⟩
      · exact Or.inl (h2.trans h1)
      · exact Or.inl (h2.le.trans_lt h1)
    · rcases hbc with h2 | ⟨h2, t2⟩
      · exact Or.inl (h2.trans_le h1.le)
      · exact Or.inr ⟨h2.trans h1, t2.trans t1⟩

/-- The final 600-character truncation applied to each returned match. -/
def truncateHit (h : TaskHit) : TaskHit :=
  { h with toRawTaskHit := { h.toRawTaskHit with text := h.toRawTaskHit.text.take 600 } }

/-- Models `Math.min(Math.max(options.limit ?? DEFAULT_LIMIT, 1), MAX_LIMIT)`. -/
def clampLimit (l : Option ℤ) : ℤ := min (max (l.getD 20) 1) 200

/-- Embeds `QueryTaskOptions` from logBackend. -/
structure QueryTaskOptions where
  prompt : List Char
  teamRoot : Option (List Char)
  teams : Option (List (List Char))
  engineers : Option (List (List Char))
  limit : Option ℤ
deriving DecidableEq, Repr

/-- One discovered `.jsonl` log file together with its contents. -/
structure JsonlFile where
  path : List Char
  content : List Char
deriving DecidableEq, Repr

/-- One discovered engineer log directory together with the `.jsonl` files
found below it: models the combined result of `listEngineerLogs` and
`walkJsonlFiles` for the options in force. -/
structure EngineerLogE where
  team : Option (List Char)
  engineer : List Char
  files : List JsonlFile
deriving DecidableEq, Repr

/-- The file-system environment a query runs against: whether the resolved
team root exists, the discovered engineer logs with their files, the home
directory, and `Date.now()` at scoring time. -/
structure QueryEnv where
  rootExists : Bool
  logs : List EngineerLogE
  homeDir : List Char
  nowMs : ℚ
deriving DecidableEq, Repr

/-- Embeds `QueryTaskResult` from logBackend (the `matches` field is named
`taskMatches` here because `matches` is a Lean keyword).
`scannedTeams` is an `Option`
because the source's missing-root early return builds an object literal
that omits the `scannedTeams` property (it is `undefined` at runtime, even
though the declared TypeScript type requires a `string[]`); `none` models
the omitted field. -/
structure QueryTaskResult where
  teamRoot : List Char
  query : List Char
  scannedTeams : Option (List (List Char))
  scannedEngineers : List (List Char)
  scannedFiles : ℕ
  extractedTasks : ℕ
  taskMatches : List TaskHit
deriving DecidableEq, Repr

def tildeStr : List Char := "~".toList
def tildeSlash : List Char := "~/".toList
def tildeTeam : List Char := "~/team".toList

/-- Embeds `expandHome` from logBackend (with `path.join(home, rest)` modelled as
`home ++ "/" ++ rest`). -/
def expandHome (home : List Char) (p : List Char) : List Char :=
  if p = tildeStr then home
  else if listPrefixOf tildeSlash p then home ++ '/' :: p.drop 2
  else p

/-- First-occurrence deduplication, the order-preserving behaviour of
`[...new Set(xs)]`. -/
def dedupAux (seen : List (List Char)) : List (List Char) → List (List Char)
  | [] => []
  | x :: t => if x ∈ seen then dedupAux seen t else x :: dedupAux (x :: seen) t

/-- Models `[...new Set(xs)]`. -/
def dedupKeepFirst (xs : List (List Char)) : List (List Char) := dedupAux [] xs

/-- The eligibility filter applied to scored items before sorting. -/
def eligibleHit (queryLower : List Char) (queryTokens : List (List Char))
    (item : TaskHit) : Bool :=
  if queryLower = [] then true
  else
    containsSub (jsToLower item.text) queryLower ||
      queryTokens.any (fun token => containsSub (jsToLower item.text) token)

/-- Embeds `queryEngineerTasks` from logBackend, over an explicit file-system
environment (`env`), with `JSON.parse` and `Date.parse` as parameters. -/
def queryEngineerTasks (jsonParse : List Char → Option Json)
    (dateParse : List Char → Option ℚ) (env : QueryEnv)
    (opts : QueryTaskOptions) : QueryTaskResult :=
  let query := normalizeText opts.prompt
  let teamRoot := expandHome env.homeDir (opts.teamRoot.getD tildeTeam)
  let limit := clampLimit opts.limit
  let queryLower := jsToLower query
  let queryTokens := tokenize query
  if !env.rootExists then
    -- The source's early-return object literal omits `scannedTeams`.
    { teamRoot
      query
      scannedTeams := none
      scannedEngineers := []
      scannedFiles := 0
      extractedTasks := 0
      taskMatches := [] }
  else
    let allTasks := env.logs.flatMap (fun el =>
      el.files.flatMap (fun f =>
        extractTasksFromJsonl jsonParse dateParse f.path el.engineer f.content))
    let scannedFiles := (env.logs.map (fun el => el.files.length)).sum
    let scored :=
      ((((allTasks.map (fun item =>
            ({ toRawTaskHit := item
               score := computeScore item queryLower queryTokens env.nowMs } :
              TaskHit))).filter
          (eligibleHit queryLower queryTokens)).insertionSort rankLE).take
        limit.toNat)
    { teamRoot
      query
      scannedTeams := some (dedupKeepFirst (env.logs.filterMap (fun el => el.team)))
      scannedEngineers := dedupKeepFirst (env.logs.map (fun el => el.engineer))
      scannedFiles
      extractedTasks := allTasks.length
      taskMatches := scored.map truncateHit }

/-! ## Session cache rows and the sync pipeline (pullFabioSessions) -/

/-- The `--source` filter: `"all" | "codex" | "claude"`. -/
inductive SourceFilter where
  | all
  | codex
  | claude
deriving DecidableEq, Repr

/-- The source tag of a cache row: `"codex" | "claude" | "openclaw" | "unknown"`. -/
inductive RowSource where
  | codex
  | claude
  | openclaw
  | unknown
deriving DecidableEq, Repr

/-- The string rendering of a `RowSource` (used when building the dedup key
and output file names). -/
def sourceStr : RowSource → List Char
  | .codex => "codex".toList
  | .claude => "claude".toList
  | .openclaw => "openclaw".toList
  | .unknown => "unknown".toList

/-- Embeds `SessionCacheRow` from pullFabioSessions. -/
structure SessionCacheRow where
  cacheKey : List Char
  contextId : List Char
  updatedAtUnix : ℤ
  source : RowSource
  host : List Char
  engineerId : List Char
  sessionId : List Char
deriving DecidableEq, Repr

/-- The result type of `parseSessionCacheKey`
(`Omit<SessionCacheRow, "contextId" | "updatedAtUnix">`). -/
structure ParsedSessionKey where
  cacheKey : List Char
  source : RowSource
  host : List Char
  engineerId : List Char
  sessionId : List Char
deriving DecidableEq, Repr

def strCtx : List Char := "ctx".toList
def strSession : List Char := "session".toList
def strCodex : List Char := "codex".toList
def strClaude : List Char := "claude".toList
def strOpenclaw : List Char := "openclaw".toList

/-- Embeds `parseSessionCacheKey` from pullFabioSessions: splits the cache key on
`:`; requires at least 6 segments beginning `ctx,session`; rejoins the
segments from index 5 on into the session id and rejects an empty one. -/
def parseSessionCacheKey (cacheKey : List Char) : Option ParsedSessionKey :=
  match splitOnChar ':' cacheKey with
  | p0 :: p1 :: p2 :: p3 :: p4 :: rest =>
    if rest = [] then none  -- fewer than 6 segments
    else if p0 ≠ strCtx ∨ p1 ≠ strSession then none
    else
      let sourceRaw := jsToLower (trimWs p2)
      let source : RowSource :=
        if sourceRaw = strCodex then .codex
        else if sourceRaw = strClaude then .claude
        else if sourceRaw = strOpenclaw then .openclaw
        else .unknown
      let sessionId := joinWith ':' rest
      if sessionId = [] then none
      else
        some { cacheKey
               source
               host := p3
               engineerId := p4
               sessionId }
  | _ => none

/-- The options record produced by `normalizeOptions` (the fields the
model tracks; `dbPath` and `baseUrl` play no role in the embedded
behaviour). -/
structure PullOpts where
  outDir : List Char
  engineerId : Option (List Char)
  host : Option (List Char)
  source : SourceFilter
  limit : ℕ
  apiKey : Option (List Char)
  skipRaw : Bool
  dryRun : Bool
deriving DecidableEq, Repr

/-- Embeds `PullFabioSessionsOptions`: the partial input to `normalizeOptions`. -/
structure PullInput where
  outDir : Option (List Char)
  engineerId : Option (List Char)
  host : Option (List Char)
  source : Option SourceFilter
  limit : Option ℤ
  apiKey : Option (List Char)
  skipRaw : Option Bool
  dryRun : Option Bool
deriving DecidableEq, Repr

/-- The empty input `{}`. -/
def emptyPullInput : PullInput :=
  { outDir := none, engineerId := none, host := none, source := none
    limit := none, apiKey := none, skipRaw := none, dryRun := none }

/-- The external world of one `pullFabioSessions` run: the trimmed-or-absent
`ULTRACONTEXT_API_KEY` environment variable, the api key extracted from
`~/.ultracontext/config.toml` (`[]` when absent or unreadable), the rows
decoded from the daemon cache (the result of `loadSessionCacheRows`), and
the remote content service (`fetched` gives the JSON payload of
`GET /contexts/{contextId}`; HTTP failures are not modelled — the claims
settled against this model fail before any fetch). -/
structure PullEnv where
  envApiKey : Option (List Char)
  configApiKey : List Char
  cacheRows : List SessionCacheRow
  fetched : List Char → Json

def defaultOutDirStr : List Char := "teams/demo/fabio/log".toList

/-- The `limit` computation of `normalizeOptions`:
`Number.isFinite(Number(input.limit)) ? Math.max(1, parseInt(input.limit)) : 120`. -/
def normalizeSyncLimit : Option ℤ → ℕ
  | some n => (max 1 n).toNat
  | none => 120

/-- Embeds `normalizeOptions` from pullFabioSessions (path resolution of `outDir`
and `dbPath` is not modelled; the option value is kept as given). -/
def normalizeOptionsM (env : PullEnv) (input : PullInput) : PullOpts :=
  { outDir := input.outDir.getD defaultOutDirStr
    engineerId := input.engineerId
    host := input.host
    source := input.source.getD .all
    limit := normalizeSyncLimit input.limit
    apiKey :=
      match input.apiKey with
      | some p => if trimWs p ≠ [] then some (trimWs p) else env.envApiKey
      | none => env.envApiKey
    skipRaw := input.skipRaw.getD false
    dryRun := input.dryRun.getD false }

/-- The row filter of `filterAndDedupeRows`; an empty-string engineer-id or
host filter is falsy in the source and therefore does not filter. -/
def rowMatches (opts : PullOpts) (row : SessionCacheRow) : Bool :=
  (match opts.engineerId with
   | some e => e = [] || row.engineerId = e
   | none => true) &&
  (match opts.host with
   | some h => h = [] || row.host = h
   | none => true) &&
  (match opts.source with
   | .all => true
   | .codex => row.source = .codex
   | .claude => row.source = .claude)

/-- The dedup key `` `${row.source}:${row.host}:${row.engineerId}:${row.sessionId}` ``. -/
def rowKey (row : SessionCacheRow) : List Char :=
  sourceStr row.source ++ ':' :: row.host ++ ':' :: row.engineerId ++
    ':' :: row.sessionId

/-- One step of the `bySession` map update: if the key is present, keep its
position and replace the stored row only when the new row is strictly more
recent; otherwise append the key. -/
def insertRow : List (List Char × SessionCacheRow) → List Char →
    SessionCacheRow → List (List Char × SessionCacheRow)
  | [], k, r => [(k, r)]
  | (k', r') :: rest, k, r =>
    if k = k' then
      (k', if r.updatedAtUnix > r'.updatedAtUnix then r else r') :: rest
    else
      (k', r') :: insertRow rest k r

/-- The `bySession` insertion-order map built over the filtered rows. -/
def buildRowMap (rows : List SessionCacheRow) :
    List (List Char × SessionCacheRow) :=
  rows.foldl (fun m row => insertRow m (rowKey row) row) []

/-- Models `[...bySession.values()]`. -/
def dedupeRows (rows : List SessionCacheRow) : List SessionCacheRow :=
  (buildRowMap rows).map Prod.snd

/-- The order of the final sort `(a, b) => b.updatedAtUnix - a.updatedAtUnix`. -/
def rowLE (a b : SessionCacheRow) : Prop :=
  b.updatedAtUnix ≤ a.updatedAtUnix

instance : DecidableRel rowLE := fun a b => by
  unfold rowLE; infer_instance

instance : IsTotal SessionCacheRow rowLE where
  total a b := le_total b.updatedAtUnix a.updatedAtUnix

instance : IsTrans SessionCacheRow rowLE where
  trans _ _ _ hab hbc := le_trans hbc hab

/-- Embeds `filterAndDedupeRows` from pullFabioSessions. -/
def filterAndDedupeRows (rows : List SessionCacheRow) (opts : PullOpts) :
    List SessionCacheRow :=
  (((dedupeRows (rows.filter (rowMatches opts))).insertionSort rowLE).take
    opts.limit)

/-- The character class `[a-zA-Z0-9._-]` of `sanitizeFileName`. -/
def isFileNameChar (c : Char) : Bool :=
  ('a' ≤ c && c ≤ 'z') || ('A' ≤ c && c ≤ 'Z') || ('0' ≤ c && c ≤ '9') ||
  c = '.' || c = '_' || c = '-'

/-- Models `value.replace(/[^a-zA-Z0-9._-]+/g, "_")` one character at a time; the
flag records whether the previous character was disallowed (so that a whole
run of disallowed characters emits a single underscore). -/
def sanitizeAux : List Char → Bool → List Char
  | [], _ => []
  | c :: cs, prev =>
    if isFileNameChar c then c :: sanitizeAux cs false
    else if prev then sanitizeAux cs true
    else '_' :: sanitizeAux cs true

/-- Embeds `sanitizeFileName` from pullFabioSessions. -/
def sanitizeFileName (value : List Char) : List Char := sanitizeAux value false

def kRole : List Char := "role".toList
def kRaw : List Char := "raw".toList
def kData : List Char := "data".toList
def extJsonl : List Char := ".jsonl".toList
def extJson : List Char := ".json".toList
def rawSubdir : List Char := "_raw".toList
def indexName : List Char := "index.json".toList

/-- Embeds `extractTextContent` from pullFabioSessions: a string is returned
as-is; on an object, the first string among `message`, `text`, `content`;
failing that, a `content` array contributes its string elements and the
string `text` fields of its object elements (empties dropped), joined by
newlines. -/
def extractTextContent (value : Json) : List Char :=
  match value with
  | .str s => s
  | .obj _ | .arr _ =>
    match asStr (getField value kMessage) with
    | some s => s
    | none =>
      match asStr (getField value kText) with
      | some s => s
      | none =>
        match asStr (getField value kContent) with
        | some s => s
        | none =>
          match getField value kContent with
          | some (.arr parts) =>
            joinWith '\n'
              ((parts.map (fun entry =>
                  match entry with
                  | .str s => s
                  | _ => (asStr (getField entry kText)).getD [])).filter
                (fun s => s ≠ []))
          | _ => []
  | _ => []

/-- Embeds `isUserMessage` from pullFabioSessions: a `role == "user"` marker on
the message itself, on its `content` sub-object, or a `type == "user"`
marker on the nested `content.raw` sub-object. -/
def isUserMessage (message : Json) : Bool :=
  match message with
  | .obj _ | .arr _ =>
    if isStrEq (getField message kRole) strUser then true
    else
      match getField message kContent with
      | some raw =>
        if isStrEq (getField raw kRole) strUser then true
        else
          match getField raw kRaw with
          | some nestedRaw => isStrEq (getField nestedRaw kType) strUser
          | none => false
      | none => false
  | _ => false

/-- Embeds `extractMessageText` from pullFabioSessions: the direct
`extractTextContent` of `message.content`, else of `content.raw`, else of
`content.raw.message`. -/
def extractMessageText (message : Json) : List Char :=
  match message with
  | .obj _ | .arr _ =>
    let content := getField message kContent
    let direct := match content with
      | some c => extractTextContent c
      | none => []
    if direct ≠ [] then direct
    else
      match content with
      | some c =>
        let raw := getField c kRaw
        let fromRaw := match raw with
          | some r => extractTextContent r
          | none => []
        if fromRaw ≠ [] then fromRaw
        else
          match raw with
          | some r =>
            (match getField r kMessage with
             | some rawMsg => extractTextContent rawMsg
             | none => [])
          | none => []
      | none => []
  | _ => []

/-- The number of user messages `dumpSession` writes for one fetched
payload: entries of the `data` array that are user-authored and whose
extracted text is non-empty after whitespace collapse. -/
def countUserMessages (detail : Json) : ℕ :=
  match getField detail kData with
  | some (.arr messages) =>
    messages.countP (fun m =>
      isUserMessage m && normalizeText (extractMessageText m) ≠ [])
  | _ => 0

/-- An observable I/O step of a sync run against the remote service or the
output directory. -/
inductive SyncEffect where
  | fetchContext (contextId : List Char) (apiKey : List Char)
  | mkdir (path : List Char)
  | writeFile (path : List Char)
deriving DecidableEq, Repr

/-- Embeds `PullFabioSessionsSummary`. -/
structure PullSummary where
  outDir : List Char
  totalSessions : ℕ
  totalUserMessages : ℕ
  dryRun : Bool
deriving DecidableEq, Repr

def missingKeyMsg : List Char :=
  "Missing API key. Set ULTRACONTEXT_API_KEY, pass --api-key, or configure ~/.ultracontext/config.toml.".toList

def noMatchMsg : List Char :=
  "No matching session contexts found in daemon cache.".toList

/-- The api key `pullFabioSessions` ends up using:
`options.apiKey || configApiKey` on top of `normalizeOptions`
(`[]` when every source is absent or blank). -/
def resolvedApiKey (env : PullEnv) (input : PullInput) : List Char :=
  match (normalizeOptionsM env input).apiKey with
  | some k => if k = [] then env.configApiKey else k
  | none => env.configApiKey

/-- The effects of `dumpSession` for one selected row, in program order:
fetch the context, write the per-session `.jsonl` file, and (unless raw
output is disabled) write the raw payload copy. -/
def dumpEffects (opts : PullOpts) (apiKey : List Char) (row : SessionCacheRow) :
    List SyncEffect :=
  let baseName := sanitizeFileName (sourceStr row.source ++ '-' :: row.sessionId)
  let outFile := opts.outDir ++ '/' :: baseName ++ extJsonl
  let rawFile := opts.outDir ++ '/' :: rawSubdir ++ '/' :: baseName ++ extJson
  .fetchContext row.contextId apiKey :: .writeFile outFile ::
    (if opts.skipRaw then [] else [.writeFile rawFile])

/-- Embeds `pullFabioSessions`: resolves options and the api key, loads and
filters/dedups the cache rows, and either fails (missing key, no matching
rows), reports a dry run, or dumps every selected session and the index.
The returned list is the trace of remote fetches and output-directory
writes, in program order (the bounded-concurrency batch is serialized in
selected-row order). -/
def pullFabioSessions (env : PullEnv) (input : PullInput) :
    List SyncEffect × Except (List Char) PullSummary :=
  let options := normalizeOptionsM env input
  let apiKey := resolvedApiKey env input
  if apiKey = [] then ([], .error missingKeyMsg)
  else
    let selectedRows := filterAndDedupeRows env.cacheRows options
    if selectedRows = [] then ([], .error noMatchMsg)
    else if options.dryRun then
      ([], .ok { outDir := options.outDir
                 totalSessions := selectedRows.length
                 totalUserMessages := 0
                 dryRun := true })
    else
      let rawDir := options.outDir ++ '/' :: rawSubdir
      let indexPath := options.outDir ++ '/' :: indexName
      let effects :=
        .mkdir options.outDir ::
          ((if options.skipRaw then [] else [SyncEffect.mkdir rawDir]) ++
            selectedRows.flatMap (dumpEffects options apiKey) ++
            [SyncEffect.writeFile indexPath])
      let totalUserMessages :=
        (selectedRows.map (fun row => countUserMessages (env.fetched row.contextId))).sum
      (effects, .ok { outDir := options.outDir
                      totalSessions := selectedRows.length
                      totalUserMessages
                      dryRun := false })

/-! ## The sync coordinator -/

/-- A coordinator-visible event: a sync is enqueued, or the running sync
finishes. -/
inductive SyncEvent where
  | enqueue
  | complete
deriving DecidableEq, Repr

/-- Modelled from the spec: the Sync Coordinator (spec §4.9) is described
by the specification but its code is not among the available sources.
State: whether a sync is running, whether one more is pending, and how
many runs have been started so far. -/
structure CoordState where
  running : Bool
  pending : Bool
  started : ℕ
deriving DecidableEq, Repr

/-- Modelled from the spec: one coordinator transition. `enqueue` starts a
run immediately when idle and otherwise only marks the pending flag;
`complete` starts exactly one more run when the pending flag is set and
otherwise goes idle. -/
def coordStep (s : CoordState) : SyncEvent → CoordState
  | .enqueue =>
    if s.running then { s with pending := true }
    else { s with running := true, started := s.started + 1 }
  | .complete =>
    if s.running then
      if s.pending then { s with pending := false, started := s.started + 1 }
      else { s with running := false }
    else s

/-- Modelled from the spec: the coordinator driven by a sequence of events. -/
def coordRun (events : List SyncEvent) (s : CoordState) : CoordState :=
  events.foldl coordStep s

/-- The coordinator state while the first sync run is executing and
nothing is queued. -/
def busyCoordState : CoordState :=
  { running := true, pending := false, started := 1 }

/-! ## Predicates used by the statements -/

/-- Every whitespace character of `l` is a plain space. -/
def wsOnlySpace (l : List Char) : Prop := ∀ c ∈ l, isJsWs c = true → c = ' '

/-- No two adjacent characters of `l` are both whitespace. -/
def noAdjWs (l : List Char) : Prop :=
  l.Chain' (fun a b => ¬(isJsWs a = true ∧ isJsWs b = true))

/-- The first character of `l`, if any, is not whitespace. -/
def headNonWs (l : List Char) : Prop := ∀ c ∈ l.head?, isJsWs c = false

/-- The last character of `l`, if any, is not whitespace. -/
def lastNonWs (l : List Char) : Prop := ∀ c ∈ l.reverse.head?, isJsWs c = false

/-- Two cache rows agree on the composite tuple
(source, host, engineerId, sessionId). -/
def sameTuple (a b : SessionCacheRow) : Prop :=
  a.source = b.source ∧ a.host = b.host ∧ a.engineerId = b.engineerId ∧
    a.sessionId = b.sessionId

instance (a b : SessionCacheRow) : Decidable (sameTuple a b) := by
  unfold sameTuple; infer_instance

/-- The host and engineer-id of `r` contain no colon (always true of rows
decoded by `parseSessionCacheKey`, whose segments come from a colon split). -/
def colonFreeRow (r : SessionCacheRow) : Prop :=
  ':' ∉ r.host ∧ ':' ∉ r.engineerId

instance (r : SessionCacheRow) : Decidable (colonFreeRow r) := by
  unfold colonFreeRow; infer_instance

/-! ## Concrete fixtures for witnesses and counterexamples -/

/-- A `Date.parse` model that never parses. -/
def fxDateParse : List Char → Option ℚ := fun _ => none

/-- A parse model producing one Codex-history record (the timestamp is in
milliseconds already, being greater than 10^12). -/
def fxJsonParse : List Char → Option Json := fun _ =>
  some (Json.obj [(kText, Json.str ("fix the login bug".toList)),
                  (kTs, Json.num 1700000000000000)])

def fxEnv : QueryEnv :=
  { rootExists := true
    logs := [{ team := none, engineer := "alice".toList
               files := [{ path := "f".toList, content := "x".toList }] }]
    homeDir := "/home/u".toList
    nowMs := 1700000000000000 }

def fxEnvNoRoot : QueryEnv :=
  { rootExists := false, logs := [], homeDir := "/home/u".toList, nowMs := 0 }

def fxOpts : QueryTaskOptions :=
  { prompt := "login".toList, teamRoot := none, teams := none
    engineers := none, limit := none }

def fxHit : RawTaskHit :=
  { engineer := "alice".toList, source := .codex
    text := "fix the login bug".toList
    timestampMs := 1700000000000000, sessionId := none, project := none
    file := "f".toList, line := 1 }

/-- The score the pipeline assigns to `fxHit` for the query `login`. -/
def fxScore : ℚ :=
  computeScore fxHit (jsToLower (normalizeText fxOpts.prompt))
    (tokenize (normalizeText fxOpts.prompt)) fxEnv.nowMs

def fxMatch : TaskHit := truncateHit { toRawTaskHit := fxHit, score := fxScore }

/-- A task text whose only query occurrence lies beyond the 600-character
output truncation. -/
def fxLongText : List Char := List.replicate 600 'a' ++ ' ' :: "login".toList

def fxLongJsonParse : List Char → Option Json := fun _ =>
  some (Json.obj [(kText, Json.str fxLongText),
                  (kTs, Json.num 1700000000000000)])

def fxLongEnv : QueryEnv :=
  { rootExists := true
    logs := [{ team := none, engineer := "alice".toList
               files := [{ path := "f".toList, content := "x".toList }] }]
    homeDir := "/home/u".toList
    nowMs := 1700000000000000 }

/-- Cache rows whose composite tuples differ but whose colon-joined dedup
keys coincide (`codex:a:b:c:s`). -/
def fxRow1 : SessionCacheRow :=
  { cacheKey := [], contextId := "c1".toList, updatedAtUnix := 1
    source := .codex, host := "a:b".toList, engineerId := "c".toList
    sessionId := "s".toList }

def fxRow2 : SessionCacheRow :=
  { cacheKey := [], contextId := "c2".toList, updatedAtUnix := 2
    source := .codex, host := "a".toList, engineerId := "b:c".toList
    sessionId := "s".toList }

/-- Two rows with the same composite tuple at update times 100 and 200. -/
def fxRowA : SessionCacheRow :=
  { cacheKey := "ctx:session:codex:hostA:eng1:sess1".toList
    contextId := "cA".toList, updatedAtUnix := 100
    source := .codex, host := "hostA".toList, engineerId := "eng1".toList
    sessionId := "sess1".toList }

def fxRowB : SessionCacheRow :=
  { cacheKey := "ctx:session:codex:hostA:eng1:sess1".toList
    contextId := "cB".toList, updatedAtUnix := 200
    source := .codex, host := "hostA".toList, engineerId := "eng1".toList
    sessionId := "sess1".toList }

def fxPullOpts : PullOpts :=
  { outDir := defaultOutDirStr, engineerId := none, host := none
    source := .all, limit := 120, apiKey := none, skipRaw := false
    dryRun := false }

def fxPullEnvKeyed : PullEnv :=
  { envApiKey := none, configApiKey := "k".toList, cacheRows := []
    fetched := fun _ => Json.null }

def fxPullEnvEP : PullEnv :=
  { envApiKey := some ("E".toList), configApiKey := "C".toList
    cacheRows := [], fetched := fun _ => Json.null }

def fxPullEnvNone : PullEnv :=
  { envApiKey := none, configApiKey := [], cacheRows := []
    fetched := fun _ => Json.null }

def fxInputP : PullInput := { emptyPullInput with apiKey := some ("P".toList) }

def fxKeyBlankSession : List Char := "ctx:session:codex:hostA:eng1:".toList

/-! ## Theorems -/

theorem score_token_foldl (textLower : List Char) (l : List (List Char))
    (acc : ℚ) :
    l.foldl (fun acc token => if containsSub textLower token then acc + 10 else acc)
        acc =
      acc + 10 * (l.countP (fun t => containsSub textLower t) : ℚ) := by
  induction l generalizing acc with
  | nil => simp
  | cons x t ih =>
    rw [List.foldl_cons]
    by_cases hx : containsSub textLower x = true
    · rw [if_pos hx, ih, List.countP_cons, hx]
      simp only [if_true]
      push_cast
      ring
    · rw [if_neg hx, ih, List.countP_cons]
      simp only [hx, if_false]
      push_cast
      ring

/-- C1: for every extracted record and query, the relevance score computed
by `computeScore` (on the normalized query, its lowercase form and its
tokens) is exactly the sum of the empty-query part, the full-substring
part, the per-token part, the known-source part and the recency part, each
of which is non-negative. -/
theorem computeScore_eq_sum_of_parts (item : RawTaskHit) (prompt : List Char)
    (nowMs : ℚ) :
    computeScore item (jsToLower (normalizeText prompt))
        (tokenize (normalizeText prompt)) nowMs =
      emptyQueryPart (jsToLower (normalizeText prompt)) +
        fullMatchPart item (jsToLower (normalizeText prompt)) +
        tokenPart item (jsToLower (normalizeText prompt))
          (tokenize (normalizeText prompt)) +
        sourcePart item + recencyPart item nowMs ∧
    0 ≤ emptyQueryPart (jsToLower (normalizeText prompt)) ∧
    0 ≤ fullMatchPart item (jsToLower (normalizeText prompt)) ∧
    0 ≤ tokenPart item (jsToLower (normalizeText prompt))
        (tokenize (normalizeText prompt)) ∧
    0 ≤ sourcePart item ∧
    0 ≤ recencyPart item nowMs := by
  refine ⟨?_, ?_, ?_, ?_, ?_, ?_⟩
  · by_cases hq : jsToLower (normalizeText prompt) = []
    · simp only [computeScore, emptyQueryPart, fullMatchPart, tokenPart,
        sourcePart, recencyPart, hq, if_pos, ne_eq, not_true_eq_false,
        false_and, if_false, if_true]
      ring
    · simp only [computeScore, emptyQueryPart, fullMatchPart, tokenPart,
        sourcePart, recencyPart, hq, ne_eq, not_false_eq_true, true_and,
        if_false, if_true]
      rw [score_token_foldl]
      ring
  · unfold emptyQueryPart; split_ifs <;> norm_num
  · unfold fullMatchPart; split_ifs <;> norm_num
  · unfold tokenPart; split_ifs with h
    · norm_num
    · positivity
  · unfold sourcePart; split_ifs <;> norm_num
  · unfold recencyPart; split_ifs with h
    · exact le_max_left 0 _
    · norm_num

theorem collapseAux_wsOnlySpace (l : List Char) (b : Bool) :
    wsOnlySpace (collapseAux l b) := by
  induction l generalizing b with
  | nil => intro d hd _; simp [collapseAux] at hd
  | cons c cs ih =>
    intro d hd hw
    by_cases hc : isJsWs c = true
    · cases b with
      | true =>
        simp only [collapseAux, hc, if_true] at hd
        exact ih true d hd hw
      | false =>
        simp only [collapseAux, hc, if_true, if_false] at hd
        rcases List.mem_cons.mp hd with h | h
        · exact h
        · exact ih true d h hw
    · simp only [collapseAux, hc, if_false] at hd
      rcases List.mem_cons.mp hd with h | h
      · rw [h] at hw; exact absurd hw hc
      · exact ih false d h hw

theorem collapseAux_headNonWs (l : List Char) : headNonWs (collapseAux l true) := by
  induction l with
  | nil => intro d hd; simp [collapseAux] at hd
  | cons c cs ih =>
    by_cases hc : isJsWs c = true
    · simpa only [collapseAux, hc, if_true] using ih
    · intro d hd
      simp only [collapseAux, hc] at hd
      simp only [Bool.false_eq_true, if_false, List.head?_cons,
        Option.mem_def, Option.some.injEq] at hd
      rw [← hd]
      exact Bool.eq_false_iff.mpr hc

theorem collapseAux_noAdjWs (l : List Char) (b : Bool) :
    noAdjWs (collapseAux l b) := by
  induction l generalizing b with
  | nil => simp [noAdjWs, collapseAux]
  | cons c cs ih =>
    by_cases hc : isJsWs c = true
    · cases b with
      | true => simpa only [collapseAux, hc, if_true] using ih true
      | false =>
        simp only [collapseAux, hc, if_true, if_false]
        refine List.chain'_cons'.mpr ⟨?_, ih true⟩
        intro y hy hcon
        have hyf := collapseAux_headNonWs cs y hy
        rw [hyf] at hcon
        exact Bool.false_ne_true hcon.2
    · simp only [collapseAux, hc, if_false]
      refine List.chain'_cons'.mpr ⟨?_, ih false⟩
      intro y _ hcon
      exact absurd hcon.1 hc

theorem headNonWs_dropWhile (l : List Char) : headNonWs (l.dropWhile isJsWs) := by
  induction l with
  | nil => intro d hd; simp at hd
  | cons c cs ih =>
    by_cases hc : isJsWs c = true
    · simpa [List.dropWhile_cons, hc] using ih
    · intro d hd
      simp only [List.dropWhile_cons, hc] at hd
      simp only [Bool.false_eq_true, if_false, List.head?_cons,
        Option.mem_def, Option.some.injEq] at hd
      rw [← hd]
      exact Bool.eq_false_iff.mpr hc

theorem trimWs_subset (l : List Char) : ∀ c ∈ trimWs l, c ∈ l := by
  intro c hc
  unfold trimWs at hc
  rw [List.mem_reverse] at hc
  have h1 := ((List.dropWhile_suffix isJsWs).sublist.subset) hc
  rw [List.mem_reverse] at h1
  exact ((List.dropWhile_suffix isJsWs).sublist.subset) h1

theorem noAdjWs_dropWhile {l : List Char} (p : Char → Bool) (h : noAdjWs l) :
    noAdjWs (l.dropWhile p) := by
  induction l with
  | nil => simpa using h
  | cons c cs ih =>
    rw [List.dropWhile_cons]
    by_cases hc : p c = true
    · rw [if_pos hc]
      exact ih h.tail
    · rwa [if_neg hc]

theorem noAdjWs_reverse {l : List Char} (h : noAdjWs l) : noAdjWs l.reverse := by
  unfold noAdjWs at *
  rw [List.chain'_reverse]
  exact h.imp (fun a b hab hcon => hab ⟨hcon.2, hcon.1⟩)

theorem noAdjWs_trimWs {l : List Char} (h : noAdjWs l) : noAdjWs (trimWs l) :=
  noAdjWs_reverse (noAdjWs_dropWhile isJsWs (noAdjWs_reverse
    (noAdjWs_dropWhile isJsWs h)))

theorem headNonWs_of_prefix {l m : List Char} (h : headNonWs m) (hp : l <+: m) :
    headNonWs l := by
  intro c hc
  rcases l with _ | ⟨a, t⟩
  · simp at hc
  · simp only [List.head?_cons, Option.mem_def, Option.some.injEq] at hc
    rcases hp with ⟨s, hs⟩
    apply h
    rw [← hs]
    simp [← hc]

theorem trimWs_headNonWs (l : List Char) : headNonWs (trimWs l) := by
  have h1 : headNonWs (l.dropWhile isJsWs) := headNonWs_dropWhile l
  refine headNonWs_of_prefix h1 ?_
  have h2 := List.dropWhile_suffix (l := (l.dropWhile isJsWs).reverse) isJsWs
  have h3 := List.reverse_prefix.mpr h2
  rwa [List.reverse_reverse] at h3

theorem trimWs_lastNonWs (l : List Char) : lastNonWs (trimWs l) := by
  intro c hc
  unfold trimWs at hc
  rw [List.reverse_reverse] at hc
  exact headNonWs_dropWhile (l.dropWhile isJsWs).reverse c hc

theorem normalizeText_wsOnlySpace (l : List Char) :
    wsOnlySpace (normalizeText l) := by
  intro c hc hw
  exact collapseAux_wsOnlySpace l false c (trimWs_subset _ c hc) hw

theorem normalizeText_noAdjWs (l : List Char) : noAdjWs (normalizeText l) :=
  noAdjWs_trimWs (collapseAux_noAdjWs l false)

theorem normalizeText_headNonWs (l : List Char) : headNonWs (normalizeText l) :=
  trimWs_headNonWs _

theorem normalizeText_lastNonWs (l : List Char) : lastNonWs (normalizeText l) :=
  trimWs_lastNonWs _

theorem lastNonWs_cons {c : Char} {cs : List Char} (h : lastNonWs (c :: cs))
    (hne : cs ≠ []) : lastNonWs cs := by
  intro d hd
  apply h
  rw [List.reverse_cons]
  rcases hrev : cs.reverse with _ | ⟨e, es⟩
  · exact absurd (List.reverse_eq_nil_iff.mp hrev) hne
  · rw [hrev] at hd
    simpa [hrev] using hd

theorem collapseAux_fixpoint (l : List Char) (hws : wsOnlySpace l)
    (hadj : noAdjWs l) (hlast : lastNonWs l) : collapseAux l false = l := by
  induction l with
  | nil => rfl
  | cons c cs ih =>
    by_cases hc : isJsWs c = true
    · have hcsp : c = ' ' := hws c (List.mem_cons_self c cs) hc
      rcases cs with _ | ⟨d, ds⟩
      · exfalso
        have hlc := hlast c (by simp)
        rw [hlc] at hc
        exact Bool.false_ne_true hc
      · have hreld : isJsWs d = false := by
          by_contra hdt
          rw [Bool.not_eq_false] at hdt
          exact (List.chain'_cons.mp hadj).1 ⟨hc, hdt⟩
        have htail : collapseAux (d :: ds) false = d :: ds := by
          refine ih ?_ ?_ ?_
          · intro e he hw; exact hws e (List.mem_cons_of_mem c he) hw
          · exact hadj.tail
          · exact lastNonWs_cons hlast (List.cons_ne_nil d ds)
        have hstep : collapseAux (d :: ds) true = collapseAux (d :: ds) false := by
          simp [collapseAux, hreld]
        calc collapseAux (c :: d :: ds) false
            = ' ' :: collapseAux (d :: ds) true := by simp [collapseAux, hc]
          _ = ' ' :: (d :: ds) := by rw [hstep, htail]
          _ = c :: d :: ds := by rw [hcsp]
    · have : collapseAux (c :: cs) false = c :: collapseAux cs false := by
        simp [collapseAux, hc]
      rw [this]
      congr 1
      rcases cs with _ | ⟨d, ds⟩
      · rfl
      · refine ih ?_ ?_ ?_
        · intro e he hw; exact hws e (List.mem_cons_of_mem c he) hw
        · exact hadj.tail
        · exact lastNonWs_cons hlast (List.cons_ne_nil d ds)

theorem trimWs_fixpoint {l : List Char} (hh : headNonWs l) (hl : lastNonWs l) :
    trimWs l = l := by
  have h1 : l.dropWhile isJsWs = l := by
    rcases l with _ | ⟨c, t⟩
    · rfl
    · rw [List.dropWhile_cons, if_neg]
      simp [hh c (by simp)]
  have h2 : l.reverse.dropWhile isJsWs = l.reverse := by
    rcases hrev : l.reverse with _ | ⟨c, t⟩
    · rfl
    · rw [List.dropWhile_cons, if_neg]
      have hlc := hl c (by rw [hrev]; simp)
      simp [hlc]
  rw [trimWs, h1, h2, List.reverse_reverse]

theorem normalizeText_idem (l : List Char) :
    normalizeText (normalizeText l) = normalizeText l := by
  have hws := normalizeText_wsOnlySpace l
  have hadj := normalizeText_noAdjWs l
  have hh := normalizeText_headNonWs l
  have hl := normalizeText_lastNonWs l
  show trimWs (replaceWsRuns (normalizeText l)) = normalizeText l
  rw [replaceWsRuns, collapseAux_fixpoint _ hws hadj hl, trimWs_fixpoint hh hl]

theorem looksLike_iff (text : List Char) :
    looksLikeActionableTask text = true ↔
      (normalizeText text ≠ [] ∧ 4 ≤ (normalizeText text).length ∧
        isBareSlashCmd (normalizeText text) = false) := by
  simp only [looksLikeActionableTask]
  split_ifs with h1 h2
  · simp only [Bool.false_eq_true, false_iff]
    intro hcon
    rcases h1 with h | h
    · exact hcon.1 h
    · omega
  · simp only [Bool.false_eq_true, false_iff]
    intro hcon
    rw [hcon.2.2] at h2
    exact Bool.false_ne_true h2
  · push_neg at h1
    simp only [true_iff]
    exact ⟨h1.1, by omega, by rw [Bool.not_eq_true] at h2; exact h2⟩

theorem extractTaskFromRecord_text_normalized (dp : List Char → Option ℚ)
    (fp : List Char) (ln : ℕ) (eng : List Char) (record : Json)
    (item : RawTaskHit) (h : item ∈ extractTaskFromRecord dp fp ln eng record) :
    ∃ r, item.text = normalizeText r := by
  unfold extractTaskFromRecord at h
  split_ifs at h with h1 h2 h3
  · simp only [List.mem_singleton] at h
    exact ⟨_, by rw [h]⟩
  · simp only [List.mem_singleton] at h
    exact ⟨_, by rw [h]⟩
  · simp only [List.mem_singleton] at h
    exact ⟨_, by rw [h]⟩
  · simp at h

/-- C3: every task record kept by the extraction engine has text that is
non-empty, fixed by whitespace collapse and trim, at least 4 characters
long, and not a bare slash-command token. -/
theorem extractTasks_text_invariant (jsonParse : List Char → Option Json)
    (dateParse : List Char → Option ℚ) (filePath engineer raw : List Char)
    (item : RawTaskHit)
    (h : item ∈ extractTasksFromJsonl jsonParse dateParse filePath engineer raw) :
    item.text ≠ [] ∧ normalizeText item.text = item.text ∧
      4 ≤ item.text.length ∧ isBareSlashCmd item.text = false := by
  unfold extractTasksFromJsonl at h
  rw [List.mem_flatMap] at h
  obtain ⟨p, _, hbody⟩ := h
  simp only at hbody
  split at hbody
  · simp at hbody
  · split at hbody
    · split at hbody
      · rw [List.mem_filter] at hbody
        obtain ⟨hmem, hlook⟩ := hbody
        obtain ⟨r, hr⟩ := extractTaskFromRecord_text_normalized dateParse
          filePath (p.1 + 1) engineer _ item hmem
        have hidem : normalizeText item.text = item.text := by
          rw [hr]; exact normalizeText_idem r
        rw [looksLike_iff, hidem] at hlook
        exact ⟨hlook.1, hidem, hlook.2.1, hlook.2.2⟩
      · simp at hbody
    · simp at hbody

/-- C4: when the resolved team root does not exist, `queryEngineerTasks`
returns (never throws) an envelope with no scanned engineers, zero scanned
files, zero extracted tasks and no matches — but its early-return object
literal omits the `scannedTeams` property entirely (modelled as `none`),
instead of the empty list required by the declared `QueryTaskResult` type
and by the claim. -/
theorem queryEngineerTasks_missing_root (jsonParse : List Char → Option Json)
    (dateParse : List Char → Option ℚ) (env : QueryEnv)
    (opts : QueryTaskOptions) (h : env.rootExists = false) :
    (queryEngineerTasks jsonParse dateParse env opts).scannedTeams = none ∧
    (queryEngineerTasks jsonParse dateParse env opts).scannedEngineers = [] ∧
    (queryEngineerTasks jsonParse dateParse env opts).scannedFiles = 0 ∧
    (queryEngineerTasks jsonParse dateParse env opts).extractedTasks = 0 ∧
    (queryEngineerTasks jsonParse dateParse env opts).taskMatches = [] := by
  simp [queryEngineerTasks, h]

theorem queryEngineerTasks_missing_root_witness :
    (queryEngineerTasks fxJsonParse fxDateParse fxEnvNoRoot fxOpts).scannedTeams
        = none ∧
    (queryEngineerTasks fxJsonParse fxDateParse fxEnvNoRoot fxOpts).scannedEngineers
        = [] ∧
    (queryEngineerTasks fxJsonParse fxDateParse fxEnvNoRoot fxOpts).scannedFiles
        = 0 ∧
    (queryEngineerTasks fxJsonParse fxDateParse fxEnvNoRoot fxOpts).extractedTasks
        = 0 ∧
    (queryEngineerTasks fxJsonParse fxDateParse fxEnvNoRoot fxOpts).taskMatches
        = [] :=
  queryEngineerTasks_missing_root fxJsonParse fxDateParse fxEnvNoRoot fxOpts rfl

theorem rankLE_truncateHit (a b : TaskHit) (h : rankLE a b) :
    rankLE (truncateHit a) (truncateHit b) := h

/-- C2 (amended): every returned match is the 600-character truncation of
an eligible scored record (eligibility judged on the record's untruncated
text), the match list is sorted by descending score with ties broken by
descending timestamp, and its length is at most the requested limit
clamped to [1, 200] (default 20). -/
theorem queryEngineerTasks_matches_ranked (jsonParse : List Char → Option Json)
    (dateParse : List Char → Option ℚ) (env : QueryEnv)
    (opts : QueryTaskOptions) :
    (∀ m ∈ (queryEngineerTasks jsonParse dateParse env opts).taskMatches,
      ∃ h : TaskHit,
        eligibleHit (jsToLower (normalizeText opts.prompt))
          (tokenize (normalizeText opts.prompt)) h = true ∧
        m = truncateHit h) ∧
    List.Sorted rankLE
      (queryEngineerTasks jsonParse dateParse env opts).taskMatches ∧
    (queryEngineerTasks jsonParse dateParse env opts).taskMatches.length ≤
      (clampLimit opts.limit).toNat ∧
    clampLimit none = 20 ∧
    (∀ n : ℤ, 1 ≤ clampLimit (some n) ∧ clampLimit (some n) ≤ 200) := by
  have hm : ∃ base : List TaskHit,
      (queryEngineerTasks jsonParse dateParse env opts).taskMatches =
        (((base.filter (eligibleHit (jsToLower (normalizeText opts.prompt))
            (tokenize (normalizeText opts.prompt)))).insertionSort
          rankLE).take (clampLimit opts.limit).toNat).map truncateHit := by
    by_cases hroot : env.rootExists
    · exact ⟨(env.logs.flatMap (fun el => el.files.flatMap (fun f =>
        extractTasksFromJsonl jsonParse dateParse f.path el.engineer
          f.content))).map
          (fun item => ({ toRawTaskHit := item
                          score := computeScore item
                            (jsToLower (normalizeText opts.prompt))
                            (tokenize (normalizeText opts.prompt))
                            env.nowMs } : TaskHit)),
        by simp [queryEngineerTasks, hroot]⟩
    · exact ⟨[], by simp [queryEngineerTasks, hroot]⟩
  obtain ⟨base, hm⟩ := hm
  refine ⟨?_, ?_, ?_, by simp [clampLimit], fun n => ?_⟩
  · intro m hmem
    rw [hm, List.mem_map] at hmem
    obtain ⟨h, hh, rfl⟩ := hmem
    have h1 := List.take_subset _ _ hh
    rw [(List.perm_insertionSort rankLE _).mem_iff, List.mem_filter] at h1
    exact ⟨h, h1.2, rfl⟩
  · rw [hm]
    rw [List.Sorted, List.pairwise_map]
    exact (List.Pairwise.sublist (List.take_sublist _ _)
      (List.sorted_insertionSort rankLE _)).imp
        (fun hab => rankLE_truncateHit _ _ hab)
  · rw [hm]
    simp only [List.length_map, List.length_take]
    omega
  · constructor
    · simp only [clampLimit, Option.getD_some]
      omega
    · simp only [clampLimit, Option.getD_some]
      omega

theorem queryEngineerTasks_matches_ranked_witness :
    ∃ h : TaskHit,
      eligibleHit (jsToLower (normalizeText fxOpts.prompt))
        (tokenize (normalizeText fxOpts.prompt)) h = true ∧
      fxMatch = truncateHit h :=
  (queryEngineerTasks_matches_ranked fxJsonParse fxDateParse fxEnv fxOpts).1
    fxMatch (by
      have h : (queryEngineerTasks fxJsonParse fxDateParse fxEnv
          fxOpts).taskMatches = [fxMatch] := rfl
      rw [h]
      exact List.mem_singleton.mpr rfl)

set_option maxRecDepth 4000 in
/-- C2 counterexample: with a single record whose only occurrence of the
query lies beyond the 600-character output truncation, the query is
non-empty and yet a returned match's (truncated) lowercased text contains
neither the full query string nor any query token — refuting the claim
that every match's text does. -/
theorem queryEngineerTasks_truncation_defeats_eligibility :
    jsToLower (normalizeText fxOpts.prompt) ≠ [] ∧
    ∃ m ∈ (queryEngineerTasks fxLongJsonParse fxDateParse fxLongEnv
        fxOpts).taskMatches,
      containsSub (jsToLower m.text)
          (jsToLower (normalizeText fxOpts.prompt)) = false ∧
      ∀ t ∈ tokenize (normalizeText fxOpts.prompt),
        containsSub (jsToLower m.text) t = false := by
  decide

theorem insertRow_mem {m : List (List Char × SessionCacheRow)} {k : List Char}
    {r : SessionCacheRow} {e : List Char × SessionCacheRow}
    (h : e ∈ insertRow m k r) : e ∈ m ∨ (e.1 = k ∧ e.2 = r) := by
  induction m with
  | nil =>
    simp only [insertRow, List.mem_singleton] at h
    right
    rw [h]
    exact ⟨rfl, rfl⟩
  | cons hd rest ih =>
    rcases hd with ⟨k', r'⟩
    by_cases hk : k = k'
    · subst hk
      simp only [insertRow, if_pos rfl] at h
      rcases List.mem_cons.mp h with h1 | h1
      · by_cases hgt : r.updatedAtUnix > r'.updatedAtUnix
        · rw [if_pos hgt] at h1
          right
          rw [h1]
          exact ⟨rfl, rfl⟩
        · rw [if_neg hgt] at h1
          left
          rw [h1]
          exact List.mem_cons_self _ _
      · exact Or.inl (List.mem_cons_of_mem _ h1)
    · simp only [insertRow, if_neg hk] at h
      rcases List.mem_cons.mp h with h1 | h1
      · exact Or.inl (h1 ▸ List.mem_cons_self _ _)
      · rcases ih h1 with h2 | h2
        · exact Or.inl (List.mem_cons_of_mem _ h2)
        · exact Or.inr h2

theorem insertRow_keys (m : List (List Char × SessionCacheRow)) (k : List Char)
    (r : SessionCacheRow) :
    (insertRow m k r).map Prod.fst =
      if k ∈ m.map Prod.fst then m.map Prod.fst
      else m.map Prod.fst ++ [k] := by
  induction m with
  | nil => simp [insertRow]
  | cons hd rest ih =>
    rcases hd with ⟨k', r'⟩
    by_cases hk : k = k'
    · subst hk
      rw [show insertRow ((k, r') :: rest) k r =
            (k, if r.updatedAtUnix > r'.updatedAtUnix then r else r') :: rest by
          rw [insertRow]; exact if_pos rfl]
      rw [List.map_cons, List.map_cons, if_pos (List.mem_cons_self _ _)]
    · simp only [insertRow, if_neg hk, List.map_cons]
      rw [ih]
      by_cases hmem : k ∈ rest.map Prod.fst
      · simp [hmem, hk]
      · simp [hmem, hk]

theorem insertRow_dominates_old {m : List (List Char × SessionCacheRow)}
    {k : List Char} {r : SessionCacheRow} :
    ∀ e' ∈ m, ∃ e ∈ insertRow m k r, e.1 = e'.1 ∧
      e'.2.updatedAtUnix ≤ e.2.updatedAtUnix := by
  induction m with
  | nil => intro e' he'; exact absurd he' (List.not_mem_nil e')
  | cons hd rest ih =>
    intro e' he'
    rcases hd with ⟨k', r'⟩
    by_cases hk : k = k'
    · subst hk
      rcases List.mem_cons.mp he' with h1 | h1
      · refine ⟨(k, if r.updatedAtUnix > r'.updatedAtUnix then r else r'),
          by simp [insertRow], ?_, ?_⟩
        · rw [h1]
        · rw [h1]
          split_ifs with hgt
          · exact le_of_lt hgt
          · exact le_refl _
      · exact ⟨e', by
          simp only [insertRow, if_pos rfl]
          exact List.mem_cons_of_mem _ h1, rfl, le_refl _⟩
    · rcases List.mem_cons.mp he' with h1 | h1
      · exact ⟨e', by
          simp only [insertRow, if_neg hk]
          exact h1 ▸ List.mem_cons_self _ _, rfl, le_refl _⟩
      · obtain ⟨e, hein, h2, h3⟩ := ih e' h1
        exact ⟨e, by
          simp only [insertRow, if_neg hk]
          exact List.mem_cons_of_mem _ hein, h2, h3⟩

theorem insertRow_dominates_new (m : List (List Char × SessionCacheRow))
    (k : List Char) (r : SessionCacheRow) :
    ∃ e ∈ insertRow m k r, e.1 = k ∧
      r.updatedAtUnix ≤ e.2.updatedAtUnix := by
  induction m with
  | nil => exact ⟨(k, r), by simp [insertRow], rfl, le_refl _⟩
  | cons hd rest ih =>
    rcases hd with ⟨k', r'⟩
    by_cases hk : k = k'
    · subst hk
      refine ⟨(k, if r.updatedAtUnix > r'.updatedAtUnix then r else r'),
        by simp [insertRow], rfl, ?_⟩
      split_ifs with hgt
      · exact le_refl _
      · exact le_of_not_lt hgt
    · obtain ⟨e, hein, h1, h2⟩ := ih
      exact ⟨e, by
        simp only [insertRow, if_neg hk]
        exact List.mem_cons_of_mem _ hein, h1, h2⟩

theorem rowFold_wf : ∀ (rows : List SessionCacheRow)
    (m : List (List Char × SessionCacheRow)),
    (∀ e ∈ m, rowKey e.2 = e.1) → (m.map Prod.fst).Nodup →
    (∀ e ∈ rows.foldl (fun m row => insertRow m (rowKey row) row) m,
      rowKey e.2 = e.1) ∧
    ((rows.foldl (fun m row => insertRow m (rowKey row) row) m).map
      Prod.fst).Nodup := by
  intro rows
  induction rows with
  | nil => intro m h1 h2; exact ⟨h1, h2⟩
  | cons row rest ih =>
    intro m h1 h2
    rw [List.foldl_cons]
    apply ih
    · intro e he
      rcases insertRow_mem he with hm | ⟨hk, hv⟩
      · exact h1 e hm
      · rw [hk, hv]
    · rw [insertRow_keys]
      split_ifs with hmem
      · exact h2
      · refine List.Nodup.append h2 (List.nodup_singleton _) ?_
        intro a ha hb
        rw [List.mem_singleton] at hb
        subst hb
        exact hmem ha

theorem rowFold_dominates : ∀ (rows : List SessionCacheRow)
    (m : List (List Char × SessionCacheRow)) (e' : List Char × SessionCacheRow),
    e' ∈ m →
    ∃ e ∈ rows.foldl (fun m row => insertRow m (rowKey row) row) m,
      e.1 = e'.1 ∧ e'.2.updatedAtUnix ≤ e.2.updatedAtUnix := by
  intro rows
  induction rows with
  | nil => intro m e' he'; exact ⟨e', he', rfl, le_refl _⟩
  | cons row rest ih =>
    intro m e' he'
    rw [List.foldl_cons]
    obtain ⟨e1, he1, hk1, hu1⟩ := insertRow_dominates_old e' he'
    obtain ⟨e, he, hk, hu⟩ := ih _ e1 he1
    exact ⟨e, he, hk.trans hk1, hu1.trans hu⟩

theorem rowFold_covers : ∀ (rows : List SessionCacheRow)
    (m : List (List Char × SessionCacheRow)) (r' : SessionCacheRow),
    r' ∈ rows →
    ∃ e ∈ rows.foldl (fun m row => insertRow m (rowKey row) row) m,
      e.1 = rowKey r' ∧ r'.updatedAtUnix ≤ e.2.updatedAtUnix := by
  intro rows
  induction rows with
  | nil => intro m r' hr'; simp at hr'
  | cons row rest ih =>
    intro m r' hr'
    rw [List.foldl_cons]
    rcases List.mem_cons.mp hr' with h1 | h1
    · subst h1
      obtain ⟨e1, he1, hk1, hu1⟩ := insertRow_dominates_new m (rowKey r') r'
      obtain ⟨e, he, hk, hu⟩ := rowFold_dominates rest _ e1 he1
      exact ⟨e, he, hk.trans hk1, hu1.trans hu⟩
    · exact ih _ r' h1

theorem rowFold_sub : ∀ (rows : List SessionCacheRow)
    (m : List (List Char × SessionCacheRow)) (e : List Char × SessionCacheRow),
    e ∈ rows.foldl (fun m row => insertRow m (rowKey row) row) m →
    e ∈ m ∨ e.2 ∈ rows := by
  intro rows
  induction rows with
  | nil => intro m e he; exact Or.inl he
  | cons row rest ih =>
    intro m e he
    rw [List.foldl_cons] at he
    rcases ih _ e he with h1 | h1
    · rcases insertRow_mem h1 with h2 | ⟨_, h2⟩
      · exact Or.inl h2
      · exact Or.inr (h2 ▸ List.mem_cons_self _ _)
    · exact Or.inr (List.mem_cons_of_mem _ h1)

theorem nodup_keys_unique {m : List (List Char × SessionCacheRow)}
    (h : (m.map Prod.fst).Nodup) {e1 e2 : List Char × SessionCacheRow}
    (h1 : e1 ∈ m) (h2 : e2 ∈ m) (hk : e1.1 = e2.1) : e1 = e2 := by
  induction m with
  | nil => simp at h1
  | cons hd rest ih =>
    rcases List.mem_cons.mp h1 with ha | ha
    · rcases List.mem_cons.mp h2 with hb | hb
      · rw [ha, hb]
      · exfalso
        subst ha
        rw [List.map_cons, List.nodup_cons] at h
        exact h.1 (hk ▸ List.mem_map_of_mem Prod.fst hb)
    · rcases List.mem_cons.mp h2 with hb | hb
      · exfalso
        subst hb
        rw [List.map_cons, List.nodup_cons] at h
        exact h.1 (hk ▸ List.mem_map_of_mem Prod.fst ha)
      · rw [List.map_cons, List.nodup_cons] at h
        exact ih h.2 ha hb

theorem countP_key_eq_one : ∀ (m : List (List Char × SessionCacheRow))
    (k : List Char), (m.map Prod.fst).Nodup → k ∈ m.map Prod.fst →
    List.countP (fun e => decide (e.1 = k)) m = 1 := by
  intro m
  induction m with
  | nil => intro k _ hk; simp at hk
  | cons hd rest ih =>
    intro k hnd hk
    rw [List.map_cons, List.nodup_cons] at hnd
    rw [List.countP_cons]
    by_cases hh : hd.1 = k
    · have hzero : List.countP (fun e => decide (e.1 = k)) rest = 0 := by
        rw [List.countP_eq_zero]
        intro e he
        simp only [decide_eq_true_eq]
        intro hek
        exact hnd.1 (hh ▸ hek ▸ List.mem_map_of_mem Prod.fst he)
      simp [hzero, hh]
    · rw [List.map_cons, List.mem_cons] at hk
      rcases hk with h1 | h1
      · exact absurd h1.symm hh
      · rw [decide_eq_false hh]
        simpa using ih k hnd.2 h1

theorem append_colon_inj {a1 a2 b1 b2 : List Char} (h1 : ':' ∉ a1)
    (h2 : ':' ∉ a2) (h : a1 ++ ':' :: b1 = a2 ++ ':' :: b2) :
    a1 = a2 ∧ b1 = b2 := by
  induction a1 generalizing a2 with
  | nil =>
    rcases a2 with _ | ⟨d, s⟩
    · simpa using h
    · exfalso
      rw [List.nil_append, List.cons_append, List.cons.injEq] at h
      exact h2 (h.1 ▸ List.mem_cons_self d s)
  | cons c t ih =>
    rcases a2 with _ | ⟨d, s⟩
    · exfalso
      rw [List.nil_append, List.cons_append, List.cons.injEq] at h
      exact h1 (h.1 ▸ List.mem_cons_self c t)
    · rw [List.cons_append, List.cons_append, List.cons.injEq] at h
      obtain ⟨hcd, hrest⟩ := h
      have ht := ih (fun hc => h1 (List.mem_cons_of_mem c hc))
        (fun hc => h2 (List.mem_cons_of_mem d hc)) hrest
      exact ⟨by rw [hcd, ht.1], ht.2⟩

theorem sourceStr_colonFree (s : RowSource) : ':' ∉ sourceStr s := by
  cases s <;> decide

theorem sourceStr_inj {s t : RowSource} (h : sourceStr s = sourceStr t) :
    s = t := by
  cases s <;> cases t <;> revert h <;> decide

theorem rowKey_eq_iff_sameTuple {a b : SessionCacheRow} (ha : colonFreeRow a)
    (hb : colonFreeRow b) : rowKey a = rowKey b ↔ sameTuple a b := by
  constructor
  · intro h
    simp only [rowKey, List.append_assoc, List.cons_append] at h
    obtain ⟨hs, h⟩ := append_colon_inj (sourceStr_colonFree _)
      (sourceStr_colonFree _) h
    obtain ⟨hh, h⟩ := append_colon_inj ha.1 hb.1 h
    obtain ⟨he, hx⟩ := append_colon_inj ha.2 hb.2 h
    exact ⟨sourceStr_inj hs, hh, he, hx⟩
  · rintro ⟨h1, h2, h3, h4⟩
    unfold rowKey
    rw [h1, h2, h3, h4]

/-- C5 (amended): for rows whose host and engineer-id contain no colon (as
is the case for every row decoded by `parseSessionCacheKey`),
`filterAndDedupeRows` keeps only rows matching the engineer-id, host and
source filters; among kept rows sharing a composite tuple
(source, host, engineerId, sessionId) exactly one row survives the dedup
stage — one with the maximum `updatedAtUnix`; and the result is sorted by
descending `updatedAtUnix` and truncated to the limit (default 120).
Without the colon-free proviso, rows with distinct tuples can share the
colon-joined dedup key and collapse (see the counterexample). -/
theorem filterAndDedupeRows_spec (rows : List SessionCacheRow)
    (opts : PullOpts) (hcf : ∀ r ∈ rows, colonFreeRow r) :
    (∀ r ∈ filterAndDedupeRows rows opts, rowMatches opts r = true) ∧
    (∀ r0 ∈ rows.filter (rowMatches opts),
      List.countP (fun r => decide (sameTuple r r0))
          (dedupeRows (rows.filter (rowMatches opts))) = 1 ∧
      ∃ r ∈ dedupeRows (rows.filter (rowMatches opts)), sameTuple r r0 ∧
        ∀ r' ∈ rows.filter (rowMatches opts), sameTuple r' r0 →
          r'.updatedAtUnix ≤ r.updatedAtUnix) ∧
    List.Sorted rowLE (filterAndDedupeRows rows opts) ∧
    (filterAndDedupeRows rows opts).length ≤ opts.limit ∧
    normalizeSyncLimit none = 120 := by
  have hwf := rowFold_wf (rows.filter (rowMatches opts)) []
    (by intro e he; simp at he) (by simp)
  have hsubfil : ∀ r ∈ dedupeRows (rows.filter (rowMatches opts)),
      r ∈ rows.filter (rowMatches opts) := by
    intro r hr
    rw [dedupeRows, List.mem_map] at hr
    obtain ⟨e, he, rfl⟩ := hr
    rcases rowFold_sub _ [] e he with h1 | h1
    · simp at h1
    · exact h1
  have hcffil : ∀ r ∈ rows.filter (rowMatches opts), colonFreeRow r := by
    intro r hr
    exact hcf r (List.mem_of_mem_filter hr)
  refine ⟨?_, ?_, ?_, ?_, rfl⟩
  · intro r hr
    have h1 := List.take_subset _ _ hr
    rw [(List.perm_insertionSort rowLE _).mem_iff] at h1
    exact List.of_mem_filter (hsubfil r h1)
  · intro r0 hr0
    have hcover := rowFold_covers (rows.filter (rowMatches opts)) [] r0 hr0
    obtain ⟨e, he, hek, heu⟩ := hcover
    constructor
    · rw [dedupeRows, buildRowMap, List.countP_map]
      have hcong : List.countP
          ((fun r => decide (sameTuple r r0)) ∘ Prod.snd)
          ((rows.filter (rowMatches opts)).foldl
            (fun m row => insertRow m (rowKey row) row) []) =
          List.countP (fun e => decide (e.1 = rowKey r0))
          ((rows.filter (rowMatches opts)).foldl
            (fun m row => insertRow m (rowKey row) row) []) := by
        apply List.countP_congr
        intro x hx
        have hxk := hwf.1 x hx
        have hxmem : x.2 ∈ rows.filter (rowMatches opts) := by
          rcases rowFold_sub _ [] x hx with h1 | h1
          · simp at h1
          · exact h1
        simp only [Function.comp_apply, decide_eq_true_eq]
        rw [← rowKey_eq_iff_sameTuple (hcffil _ hxmem) (hcffil _ hr0), hxk]
      rw [hcong]
      apply countP_key_eq_one _ _ hwf.2
      rw [← hek]
      exact List.mem_map_of_mem Prod.fst he
    · refine ⟨e.2, List.mem_map_of_mem Prod.snd he, ?_, ?_⟩
      · rw [← rowKey_eq_iff_sameTuple
          (hcffil _ (by
            rcases rowFold_sub _ [] e he with h1 | h1
            · simp at h1
            · exact h1)) (hcffil _ hr0), hwf.1 e he, hek]
      · intro r' hr' hsame
        obtain ⟨e', he', hek', heu'⟩ :=
          rowFold_covers (rows.filter (rowMatches opts)) [] r' hr'
        have hkk : e'.1 = e.1 := by
          rw [hek', hek]
          exact (rowKey_eq_iff_sameTuple (hcffil _ hr') (hcffil _ hr0)).mpr hsame
        have := nodup_keys_unique hwf.2 he' he hkk
        rw [← this]
        exact heu'
  · unfold filterAndDedupeRows
    exact List.Pairwise.sublist (List.take_sublist _ _)
      (List.sorted_insertionSort rowLE _)
  · unfold filterAndDedupeRows
    simp only [List.length_take]
    omega

/-- C5 counterexample: two rows that both pass the filters and have
distinct composite tuples (their hosts/engineer-ids contain colons)
collapse to a single surviving row, because the dedup key is the
colon-joined string; the tuple of `fxRow1` has no survivor at all. -/
theorem filterAndDedupeRows_tuple_collision :
    rowMatches fxPullOpts fxRow1 = true ∧
    rowMatches fxPullOpts fxRow2 = true ∧
    ¬ sameTuple fxRow1 fxRow2 ∧
    (filterAndDedupeRows [fxRow1, fxRow2] fxPullOpts).length = 1 ∧
    ∀ r ∈ filterAndDedupeRows [fxRow1, fxRow2] fxPullOpts,
      ¬ sameTuple r fxRow1 := by
  decide

theorem filterAndDedupeRows_spec_witness :
    List.countP (fun r => decide (sameTuple r fxRowB))
        (dedupeRows (List.filter (rowMatches fxPullOpts) [fxRowA, fxRowB]))
      = 1 :=
  ((filterAndDedupeRows_spec [fxRowA, fxRowB] fxPullOpts (by decide)).2.1
    fxRowB (by decide)).1

/-- C6: when the filter/dedup stage selects zero cache rows (and an api
key was resolved), `pullFabioSessions` fails with the explicit
no-matching-sessions error and performs no remote fetch, no directory
creation and no file write (its effect trace is empty). -/
theorem pullFabioSessions_no_matching_rows (env : PullEnv) (input : PullInput)
    (hkey : resolvedApiKey env input ≠ [])
    (hrows : filterAndDedupeRows env.cacheRows (normalizeOptionsM env input)
      = []) :
    pullFabioSessions env input = ([], .error noMatchMsg) := by
  simp only [pullFabioSessions]
  rw [if_neg hkey, if_pos hrows]

theorem pullFabioSessions_no_matching_rows_witness :
    pullFabioSessions fxPullEnvKeyed emptyPullInput = ([], .error noMatchMsg) :=
  pullFabioSessions_no_matching_rows fxPullEnvKeyed emptyPullInput
    (by decide) (by decide)

/-- C7 counterexample: with the environment variable set to `E`, an
explicit apiKey parameter `P` and a config-file key `C`, the key the sync
uses is `P`: the explicit parameter takes precedence over the environment
variable, refuting the claimed environment-first order. -/
theorem resolvedApiKey_param_beats_env :
    fxPullEnvEP.envApiKey = some ("E".toList) ∧
    fxInputP.apiKey = some ("P".toList) ∧
    resolvedApiKey fxPullEnvEP fxInputP = "P".toList ∧
    "P".toList ≠ "E".toList := by
  decide

/-- C7 (amended): the api key is resolved by consulting, in precedence
order: the explicit apiKey parameter (trimmed, when non-blank), then the
(trimmed) ULTRACONTEXT_API_KEY environment variable, then the config-file
api_key value; when all three are absent or blank, the sync fails
immediately with the missing-key configuration error, with no remote
fetch and no file write (empty effect trace). -/
theorem apiKey_resolution_spec :
    (∀ (env : PullEnv) (input : PullInput) (p : List Char),
      input.apiKey = some p → trimWs p ≠ [] →
      resolvedApiKey env input = trimWs p) ∧
    (∀ (env : PullEnv) (input : PullInput) (e : List Char),
      (input.apiKey = none ∨ ∃ p, input.apiKey = some p ∧ trimWs p = []) →
      env.envApiKey = some e → e ≠ [] →
      resolvedApiKey env input = e) ∧
    (∀ (env : PullEnv) (input : PullInput),
      (input.apiKey = none ∨ ∃ p, input.apiKey = some p ∧ trimWs p = []) →
      (env.envApiKey = none ∨ env.envApiKey = some []) →
      resolvedApiKey env input = env.configApiKey) ∧
    (∀ (env : PullEnv) (input : PullInput),
      resolvedApiKey env input = [] →
      pullFabioSessions env input = ([], .error missingKeyMsg)) := by
  refine ⟨?_, ?_, ?_, ?_⟩
  · intro env input p hp hne
    simp only [resolvedApiKey, normalizeOptionsM, hp]
    rw [if_pos hne]
    exact if_neg hne
  · intro env input e hin henv hne
    rcases hin with hin | ⟨p, hp, hpe⟩
    · simp only [resolvedApiKey, normalizeOptionsM, hin, henv]
      exact if_neg hne
    · simp only [resolvedApiKey, normalizeOptionsM, hp, hpe, ne_eq,
        not_true_eq_false, if_false, henv]
      exact if_neg hne
  · intro env input hin henv
    rcases hin with hin | ⟨p, hp, hpe⟩
    · rcases henv with henv | henv
      · simp only [resolvedApiKey, normalizeOptionsM, hin, henv]
      · simp only [resolvedApiKey, normalizeOptionsM, hin, henv]
        simp
    · rcases henv with henv | henv
      · simp only [resolvedApiKey, normalizeOptionsM, hp, hpe, ne_eq,
          not_true_eq_false, if_false, henv]
      · simp only [resolvedApiKey, normalizeOptionsM, hp, hpe, ne_eq,
          not_true_eq_false, if_false, henv]
        simp
  · intro env input h
    simp only [pullFabioSessions]
    rw [if_pos h]

theorem apiKey_resolution_spec_witness :
    resolvedApiKey fxPullEnvEP fxInputP = trimWs ("P".toList) ∧
    pullFabioSessions fxPullEnvNone emptyPullInput =
      ([], .error missingKeyMsg) :=
  ⟨apiKey_resolution_spec.1 fxPullEnvEP fxInputP ("P".toList) rfl (by decide),
   apiKey_resolution_spec.2.2.2 fxPullEnvNone emptyPullInput (by decide)⟩

theorem sanitizeAux_after_bad (t : List Char) :
    sanitizeAux t true =
      sanitizeAux (t.dropWhile (fun d => !isFileNameChar d)) false := by
  induction t with
  | nil => rfl
  | cons c cs ih =>
    by_cases hc : isFileNameChar c = true
    · simp [sanitizeAux, List.dropWhile_cons, hc]
    · simp [sanitizeAux, List.dropWhile_cons, hc, ih]

theorem sanitizeAux_length : ∀ (l : List Char) (b : Bool),
    (sanitizeAux l b).length ≤ l.length := by
  intro l
  induction l with
  | nil => intro b; simp [sanitizeAux]
  | cons c cs ih =>
    intro b
    by_cases hc : isFileNameChar c = true
    · simp only [sanitizeAux, hc, if_true, List.length_cons]
      exact Nat.succ_le_succ (ih false)
    · cases b with
      | true =>
        simp only [sanitizeAux, hc, Bool.false_eq_true, if_false, if_true,
          List.length_cons]
        exact (ih true).trans (Nat.le_succ _)
      | false =>
        simp only [sanitizeAux, hc, Bool.false_eq_true, if_false,
          List.length_cons]
        exact Nat.succ_le_succ (ih true)

theorem sanitizeAux_chars : ∀ (l : List Char) (b : Bool) (c : Char),
    c ∈ sanitizeAux l b → isFileNameChar c = true := by
  intro l
  induction l with
  | nil => intro b c hc; simp [sanitizeAux] at hc
  | cons d cs ih =>
    intro b c hc
    by_cases hd : isFileNameChar d = true
    · simp only [sanitizeAux, hd, if_true] at hc
      rcases List.mem_cons.mp hc with h | h
      · rw [h]; exact hd
      · exact ih false c h
    · cases b with
      | true =>
        simp only [sanitizeAux, hd, Bool.false_eq_true, if_false, if_true] at hc
        exact ih true c hc
      | false =>
        simp only [sanitizeAux, hd, Bool.false_eq_true, if_false] at hc
        rcases List.mem_cons.mp hc with h | h
        · rw [h]; decide
        · exact ih true c h

/-- C8 (amended): `sanitizeFileName` leaves characters of the class
[A-Za-z0-9._-] unchanged and replaces every maximal run of characters
outside the class with a single underscore (not one underscore per
character); consequently the output length is at most — not always equal
to — the input length, and every output character lies in the class. -/
theorem sanitizeFileName_spec :
    sanitizeFileName [] = [] ∧
    (∀ c t, isFileNameChar c = true →
      sanitizeFileName (c :: t) = c :: sanitizeFileName t) ∧
    (∀ c t, isFileNameChar c = false →
      sanitizeFileName (c :: t) =
        '_' :: sanitizeFileName (t.dropWhile (fun d => !isFileNameChar d))) ∧
    (∀ l, (sanitizeFileName l).length ≤ l.length) ∧
    (∀ l c, c ∈ sanitizeFileName l → isFileNameChar c = true) := by
  refine ⟨rfl, ?_, ?_, ?_, ?_⟩
  · intro c t hc
    simp [sanitizeFileName, sanitizeAux, hc]
  · intro c t hc
    show sanitizeAux (c :: t) false = _
    rw [show sanitizeAux (c :: t) false = '_' :: sanitizeAux t true by
      simp [sanitizeAux, hc]]
    rw [sanitizeAux_after_bad]
    rfl
  · intro l
    exact sanitizeAux_length l false
  · intro l c h
    exact sanitizeAux_chars l false c h

theorem sanitizeFileName_spec_witness :
    sanitizeFileName ('!' :: ("b".toList)) =
      '_' :: sanitizeFileName (("b".toList).dropWhile
        (fun d => !isFileNameChar d)) :=
  sanitizeFileName_spec.2.2.1 '!' ("b".toList) (by decide)

/-- C8 counterexample: a run of two disallowed characters maps to a single
underscore, so the output is strictly shorter than the input, refuting the
claimed length preservation. -/
theorem sanitizeFileName_collapses_runs :
    sanitizeFileName ("a!!b".toList) = "a_b".toList ∧
    (sanitizeFileName ("a!!b".toList)).length ≠ ("a!!b".toList).length := by
  decide

theorem coordRun_enqueues (N : ℕ) (s : CoordState) (h : s.running = true) :
    (coordRun (List.replicate N .enqueue) s).running = true ∧
    (coordRun (List.replicate N .enqueue) s).started = s.started := by
  induction N generalizing s with
  | zero => exact ⟨h, rfl⟩
  | succ n ih =>
    rw [List.replicate_succ]
    show (coordRun (List.replicate n .enqueue) (coordStep s .enqueue)).running
        = true ∧
      (coordRun (List.replicate n .enqueue) (coordStep s .enqueue)).started
        = s.started
    have hs : coordStep s .enqueue = { s with pending := true } := by
      simp [coordStep, h]
    rw [hs]
    exact ih { s with pending := true } h

theorem coordRun_completes (k : ℕ) (s : CoordState) :
    (coordRun (List.replicate k .complete) s).started ≤
      s.started + (if s.running = true ∧ s.pending = true then 1 else 0) := by
  induction k generalizing s with
  | zero =>
    simp only [List.replicate_zero, coordRun, List.foldl_nil]
    split_ifs <;> omega
  | succ n ih =>
    rw [List.replicate_succ]
    show (coordRun (List.replicate n .complete) (coordStep s .complete)).started
        ≤ _
    by_cases hr : s.running = true
    · by_cases hp : s.pending = true
      · have hs : coordStep s .complete =
            { s with pending := false, started := s.started + 1 } := by
          simp [coordStep, hr, hp]
        rw [hs]
        have hb := ih { s with pending := false, started := s.started + 1 }
        simp only [hr, hp, and_self, if_true] at hb ⊢
        simp only [Bool.false_eq_true, and_false, if_false] at hb
        omega
      · have hs : coordStep s .complete = { s with running := false } := by
          simp only [coordStep, hr, if_true]
          rw [if_neg hp]
        rw [hs]
        have hb := ih { s with running := false }
        simp only [Bool.false_eq_true, false_and, if_false] at hb
        split_ifs <;> omega
    · have hs : coordStep s .complete = s := by
        simp only [coordStep]
        rw [if_neg hr]
      rw [hs]
      have hb := ih s
      split_ifs at hb ⊢ <;> omega

/-- C9: in the spec-modelled coordinator, any number `N` of enqueue calls
arriving while the first sync run is in progress, followed by any number
of run completions, start at most one additional run: at most 2 runs
execute in total. -/
theorem coordinator_coalesces (N k : ℕ) :
    (coordRun (List.replicate N .enqueue ++ List.replicate k .complete)
      busyCoordState).started ≤ 2 := by
  have happ : coordRun
      (List.replicate N .enqueue ++ List.replicate k .complete)
        busyCoordState =
      coordRun (List.replicate k .complete)
        (coordRun (List.replicate N .enqueue) busyCoordState) := by
    simp [coordRun, List.foldl_append]
  rw [happ]
  have h1 := coordRun_enqueues N busyCoordState rfl
  have h2 := coordRun_completes k
    (coordRun (List.replicate N .enqueue) busyCoordState)
  have hb : busyCoordState.started = 1 := rfl
  rw [h1.2, hb] at h2
  split_ifs at h2 <;> omega

/-- C10: `parseSessionCacheKey` also returns `none` for every key that has
at least 6 colon-delimited segments beginning `ctx`,`session` but whose
rejoined session id (segments from index 5 on, joined with colons) is
empty. -/
theorem parseSessionCacheKey_blank_sessionId (key : List Char)
    (hlen : 6 ≤ (splitOnChar ':' key).length)
    (h0 : (splitOnChar ':' key).getD 0 [] = strCtx)
    (h1 : (splitOnChar ':' key).getD 1 [] = strSession)
    (hsid : joinWith ':' ((splitOnChar ':' key).drop 5) = []) :
    parseSessionCacheKey key = none := by
  rcases hs : splitOnChar ':' key with _ | ⟨a, t0⟩
  · rw [hs] at hlen; simp at hlen
  rcases t0 with _ | ⟨b, t1⟩
  · rw [hs] at hlen; simp at hlen
  rcases t1 with _ | ⟨c, t2⟩
  · rw [hs] at hlen; simp at hlen
  rcases t2 with _ | ⟨d, t3⟩
  · rw [hs] at hlen; simp at hlen
  rcases t3 with _ | ⟨e, rest⟩
  · rw [hs] at hlen; simp at hlen
  rcases rest with _ | ⟨f, rest'⟩
  · rw [hs] at hlen; simp at hlen
  rw [hs] at h0 h1 hsid
  simp only [List.getD_cons_zero, List.getD_cons_succ] at h0 h1
  simp only [List.drop_succ_cons, List.drop_zero] at hsid
  simp only [parseSessionCacheKey, hs]
  rw [if_neg (by simp), if_neg (by
    push_neg
    exact ⟨h0, h1⟩)]
  rw [if_pos hsid]

theorem parseSessionCacheKey_blank_sessionId_witness :
    parseSessionCacheKey fxKeyBlankSession = none :=
  parseSessionCacheKey_blank_sessionId fxKeyBlankSession (by decide)
    (by decide) (by decide) (by decide)

theorem extractTasks_text_invariant_witness :
    fxHit.text ≠ [] ∧ normalizeText fxHit.text = fxHit.text ∧
      4 ≤ fxHit.text.length ∧ isBareSlashCmd fxHit.text = false :=
  extractTasks_text_invariant fxJsonParse fxDateParse ("f".toList)
    ("alice".toList) ("x".toList) fxHit (by decide)
